import Mathlib

/-!
# littlecache: verification of the eviction engines against their specification

Shallow embedding of the Go package `littlecache`: a capacity-bounded map with
no eviction (`DefCache`, def.go), an LRU engine (`LRUCache`, lru.go), an LFU
engine with frequency buckets (`LFUCache`, lfu.go), a TTL decorator
(`TTLCache`, ttl.go) and the construction routing (`NewLittleCache`,
littlecache.go).

Modelling conventions:
* Go `map[string]V` is embedded as an association list `List (String × V)`;
  map assignment replaces every pair at the key (reachable map states have
  unique keys), deletion drops every pair at the key, lookup takes the first.
* Go `int` values (sizes, capacities, frequencies) are embedded as `Int`.
* The intrusive doubly-linked lists with sentinel anchors are embedded as
  plain Lean lists in head-to-tail order: the element after the sentinel head
  (most recently inserted) is the list head, the element before the sentinel
  tail (the eviction victim) is the last element.
* Operations that in Go would dereference a nil pointer (for example
  `removeLFU` when `freqMap[minFreq]` is absent) return `none`, modelling the
  run-time panic.  Mutating operations therefore return `Option` states.
* `time.Time` instants and `time.Duration` values are embedded as `Int`
  nanosecond counts; `time.Now()` is passed in explicitly as a `now` argument.
-/

namespace LittleCache

/-- The two validation errors of littlecache.go: `ErrInvalidMaxSize` and
`ErrInvalidEvictionPolicy`. -/
inductive LCError where
  | invalidMaxSize
  | invalidEvictionPolicy
deriving DecidableEq, Repr

/-! ## Association lists embedding Go maps keyed by `String` -/

/-- Go map read `m[k]` (first matching pair). -/
def alookup {β : Type} (k : String) (l : List (String × β)) : Option β :=
  (l.find? (fun p => p.1 = k)).map Prod.snd

/-- Replace the value stored at key `k` (Go map assignment on a present key). -/
def areplace {β : Type} (k : String) (v : β) (l : List (String × β)) :
    List (String × β) :=
  l.map (fun p => if p.1 = k then (k, v) else p)

/-- Go map assignment `m[k] = v`: replace if the key is present, otherwise add. -/
def aupsert {β : Type} (k : String) (v : β) (l : List (String × β)) :
    List (String × β) :=
  if l.any (fun p => p.1 = k) then areplace k v l else (k, v) :: l

/-- Go `delete(m, k)`. -/
def aerase {β : Type} (k : String) (l : List (String × β)) :
    List (String × β) :=
  l.filter (fun p => p.1 ≠ k)

/-! ## The operations of the `LittleCache` engine contract, as an op language

`Size` is a pure observation and never changes state, so operation sequences
range over the five mutators named by the claims. -/

/-- One operation against the engine contract. -/
inductive CacheOp (α : Type) where
  | set (k : String) (v : α)
  | get (k : String)
  | del (k : String)
  | clear
  | resize (n : Int)
deriving DecidableEq, Repr

/-! ## DefCache: the baseline capacity-bounded map with no eviction (def.go) -/

/-- State of `DefCache`: the `config.MaxSize` field and the `data` map. -/
structure DefCache (α : Type) where
  maxSize : Int
  data : List (String × α)
deriving DecidableEq, Repr

namespace DefCache

/-- The state built by `NewDefCache` after a successful `config.Validate()`. -/
def fresh (α : Type) (maxSize : Int) : DefCache α := ⟨maxSize, []⟩

/-- def.go `Set`: overwrite if present; insert if below capacity; otherwise
silently drop the write.  Total — `Set` has no error channel. -/
def Set (d : DefCache α) (key : String) (value : α) : DefCache α :=
  if d.data.any (fun p => p.1 = key) then
    { d with data := areplace key value d.data }
  else if (d.data.length : Int) ≥ d.maxSize then
    d
  else
    { d with data := (key, value) :: d.data }

/-- def.go `Get`. -/
def Get (d : DefCache α) (key : String) : Option α :=
  alookup key d.data

/-- def.go `Delete`. -/
def Delete (d : DefCache α) (key : String) : DefCache α :=
  { d with data := aerase key d.data }

/-- def.go `Clear`. -/
def Clear (d : DefCache α) : DefCache α :=
  { d with data := [] }

/-- def.go `Size`: `len(d.data)`. -/
def Size (d : DefCache α) : Int :=
  (d.data.length : Int)

/-- def.go `Resize`: reject `newSize ≤ 0`, otherwise just update the capacity;
the no-eviction policy never removes items. -/
def Resize (d : DefCache α) (newSize : Int) : Except LCError (DefCache α) :=
  if newSize ≤ 0 then .error .invalidMaxSize
  else .ok { d with maxSize := newSize }

/-- Apply one engine-contract operation to a `DefCache`; a failed `Resize`
returns its error to the caller and leaves the state unchanged. -/
def apply (d : DefCache α) : CacheOp α → DefCache α
  | .set k v => d.Set k v
  | .get _ => d
  | .del k => d.Delete k
  | .clear => d.Clear
  | .resize n =>
    match d.Resize n with
    | .error _ => d
    | .ok d2 => d2

/-- Run an operation sequence from a given baseline state. -/
def runFrom (d : DefCache α) : List (CacheOp α) → DefCache α
  | [] => d
  | op :: rest => runFrom (d.apply op) rest

/-- Run an operation sequence on a fresh baseline cache of the given capacity. -/
def run (α : Type) (maxSize : Int) (ops : List (CacheOp α)) : DefCache α :=
  runFrom (fresh α maxSize) ops

/-- Holds when an operation is anything but a downward `Resize` below the
current entry count: a `Resize n` must either carry an invalid `n ≤ 0`
(rejected, state unchanged) or arrive when the entry count is at most `n`. -/
def goodResizeStep (d : DefCache α) : CacheOp α → Bool
  | .resize n => decide (n ≤ 0) || decide ((d.data.length : Int) ≤ n)
  | _ => true

/-- Holds when every `Resize` in the sequence satisfies `goodResizeStep` at
its point of execution. -/
def goodResizes (d : DefCache α) : List (CacheOp α) → Bool
  | [] => true
  | op :: rest => goodResizeStep d op && goodResizes (d.apply op) rest

end DefCache

/-! ## LRUCache: hashmap plus recency-ordered doubly-linked list (lru.go)

The `cache` map and the intrusive list always hold exactly the same keys —
every mutation updates both in the same critical section — so the state is
embedded as the recency-ordered list of `(key, value)` pairs together with the
separately maintained `size` counter, exactly as the source keeps it.  The
list is most-recent first; its last element is `tail.prev`, the eviction
victim. -/

/-- State of `LRUCache`: `config.MaxSize`, the `size` counter and the
recency-ordered node list. -/
structure LRUCache (α : Type) where
  maxSize : Int
  size : Int
  list : List (String × α)
deriving DecidableEq, Repr

/-- lru.go `popTail`: unlink and return the node before the tail sentinel
(the last real node).  On an empty list the sentinels would unlink each
other — unreachable, modelled as `none`. -/
def popTail {α : Type} : List (String × α) → Option (List (String × α) × (String × α))
  | [] => none
  | [x] => some ([], x)
  | x :: y :: rest =>
    match popTail (y :: rest) with
    | none => none
    | some (front, last) => some (x :: front, last)

namespace LRUCache

/-- The state built by `NewLRUCache` after a successful `config.Validate()`:
empty map, sentinels linked to each other. -/
def fresh (α : Type) (maxSize : Int) : LRUCache α := ⟨maxSize, 0, []⟩

/-- lru.go `Set`: on a new key add the node at the head and, if the size now
exceeds the capacity, evict the tail node; on an existing key update the value
and move the node to the head. -/
def Set (lru : LRUCache α) (key : String) (value : α) : Option (LRUCache α) :=
  if lru.list.any (fun p => p.1 = key) then
    -- node.value = value; moveToHead(node)
    some { lru with
           list := (key, value) :: lru.list.filter (fun p => p.1 ≠ key) }
  else
    let grown := (key, value) :: lru.list
    let size1 := lru.size + 1
    if size1 > lru.maxSize then
      match popTail grown with
      | none => none
      | some (remaining, _tail) =>
        some { lru with list := remaining, size := size1 - 1 }
    else
      some { lru with list := grown, size := size1 }

/-- lru.go `Get`: a hit moves the node to the head (recency touch) and returns
its value; a miss returns `(nil, false)`.  The release-then-reacquire lock
pattern of the source is sequentially this touch. -/
def Get (lru : LRUCache α) (key : String) : Option α × LRUCache α :=
  match alookup key lru.list with
  | none => (none, lru)
  | some v =>
    (some v,
     { lru with list := (key, v) :: lru.list.filter (fun p => p.1 ≠ key) })

/-- lru.go `Delete`: unlink and remove when present. -/
def Delete (lru : LRUCache α) (key : String) : LRUCache α :=
  if lru.list.any (fun p => p.1 = key) then
    { lru with list := lru.list.filter (fun p => p.1 ≠ key),
               size := lru.size - 1 }
  else
    lru

/-- lru.go `Clear`. -/
def Clear (lru : LRUCache α) : LRUCache α :=
  { lru with list := [], size := 0 }

/-- lru.go `Size`. -/
def Size (lru : LRUCache α) : Int := lru.size

/-- The body of the eviction loop of lru.go `Resize`: pop the tail while
`size > MaxSize`.  Each pass decrements `size` by exactly one, so the loop
runs exactly `(size - MaxSize)⁺` passes; that count is carried as the `fuel`
argument to keep the recursion structural. -/
def evictLoopGo (maxSize : Int) : Nat → List (String × α) → Int →
    Option (List (String × α) × Int)
  | 0, l, size => some (l, size)
  | fuel + 1, l, size =>
    if size > maxSize then
      match popTail l with
      | none => none
      | some (remaining, _tail) => evictLoopGo maxSize fuel remaining (size - 1)
    else
      some (l, size)

/-- The eviction loop of lru.go `Resize`: pop the tail while `size > MaxSize`. -/
def evictLoop (maxSize : Int) (l : List (String × α)) (size : Int) :
    Option (List (String × α) × Int) :=
  evictLoopGo maxSize (size - maxSize).toNat l size

/-- lru.go `Resize`: reject `newSize ≤ 0`, otherwise set the capacity and
evict tail nodes until the size fits. -/
def Resize (lru : LRUCache α) (newSize : Int) :
    Option (Except LCError (LRUCache α)) :=
  if newSize ≤ 0 then some (.error .invalidMaxSize)
  else
    match evictLoop newSize lru.list lru.size with
    | none => none
    | some (l2, size2) =>
      some (.ok { maxSize := newSize, size := size2, list := l2 })

/-- Apply one engine-contract operation to an `LRUCache`; `none` models a
run-time panic, a failed `Resize` leaves the state unchanged. -/
def apply (lru : LRUCache α) : CacheOp α → Option (LRUCache α)
  | .set k v => lru.Set k v
  | .get k => some (lru.Get k).2
  | .del k => some (lru.Delete k)
  | .clear => some lru.Clear
  | .resize n =>
    match lru.Resize n with
    | none => none
    | some (.error _) => some lru
    | some (.ok lru2) => some lru2

/-- Run an operation sequence from a given LRU state. -/
def runFrom (lru : LRUCache α) : List (CacheOp α) → Option (LRUCache α)
  | [] => some lru
  | op :: rest =>
    match lru.apply op with
    | none => none
    | some lru2 => runFrom lru2 rest

/-- Run an operation sequence on a fresh LRU cache of the given capacity. -/
def run (α : Type) (maxSize : Int) (ops : List (CacheOp α)) :
    Option (LRUCache α) :=
  runFrom (fresh α maxSize) ops

end LRUCache

/-! ## LFUCache: hashmap plus frequency buckets (lfu.go)

Each frequency bucket is the sentinel-anchored doubly-linked list of the nodes
currently at that frequency, embedded most-recent first (the node after the
sentinel head is the list head; `head.prev`, the oldest node, is the last
element).  A node `(key, value, freq)` is embedded as the pair `(key, value)`
inside the bucket of its frequency, with the `cache` map recording
`key ↦ freq`; a node recorded in the map always sits in the bucket matching
its frequency (the structural pointer invariant of the source), and states
violating it would make the Go code dereference nil, modelled as `none`. -/

/-- A frequency bucket: the nodes at one frequency, most recently inserted
first. -/
abbrev Bucket (α : Type) := List (String × α)

/-- State of `LFUCache`: `config.MaxSize`, the `size` counter, the `cache`
map (key to current frequency), the `freqMap` (frequency to bucket) and
`minFreq`. -/
structure LFUCache (α : Type) where
  maxSize : Int
  size : Int
  cache : List (String × Int)
  freqMap : List (Int × Bucket α)
  minFreq : Int
deriving DecidableEq, Repr

/-- Go map read `freqMap[f]` for the `Int`-keyed frequency map. -/
def flookup {α : Type} (f : Int) (l : List (Int × Bucket α)) : Option (Bucket α) :=
  (l.find? (fun p => p.1 = f)).map Prod.snd

/-- Go map assignment `freqMap[f] = b`. -/
def fupsert {α : Type} (f : Int) (b : Bucket α) (l : List (Int × Bucket α)) :
    List (Int × Bucket α) :=
  if l.any (fun p => p.1 = f) then
    l.map (fun p => if p.1 = f then (f, b) else p)
  else
    (f, b) :: l

/-- Go `delete(freqMap, f)`. -/
def ferase {α : Type} (f : Int) (l : List (Int × Bucket α)) :
    List (Int × Bucket α) :=
  l.filter (fun p => p.1 ≠ f)

namespace LFUCache

/-- The state built by `NewLFUCache` after a successful `config.Validate()`. -/
def fresh (α : Type) (maxSize : Int) : LFUCache α := ⟨maxSize, 0, [], [], 0⟩

/-- lfu.go `addNode`: create the bucket for `freq` if absent (a fresh
self-linked sentinel) and insert the node right after its head. -/
def addNode (lfu : LFUCache α) (key : String) (value : α) (freq : Int) :
    LFUCache α :=
  let bucket := (flookup freq lfu.freqMap).getD []
  { lfu with freqMap := fupsert freq ((key, value) :: bucket) lfu.freqMap }

/-- lfu.go `updateFreq` on the node `(key, value)` currently at frequency
`freq` (with `node.value` already holding `value`): unlink the node from its
bucket, delete the bucket if that emptied it — advancing `minFreq` to
`freq + 1` when it was the minimum — then reinsert the node at `freq + 1`.
`none` models the nil dereference on a state where the bucket of the node is
absent. -/
def updateFreq (lfu : LFUCache α) (key : String) (value : α) (freq : Int) :
    Option (LFUCache α) :=
  match flookup freq lfu.freqMap with
  | none => none
  | some bucket =>
    let bucket2 := bucket.filter (fun p => p.1 ≠ key)
    let lfu2 :=
      if bucket2.isEmpty then
        { lfu with freqMap := ferase freq lfu.freqMap,
                   minFreq := if lfu.minFreq = freq then freq + 1
                              else lfu.minFreq }
      else
        { lfu with freqMap := fupsert freq bucket2 lfu.freqMap }
    let lfu3 := addNode lfu2 key value (freq + 1)
    some { lfu3 with cache := aupsert key (freq + 1) lfu3.cache }

/-- lfu.go `removeLFU`: unlink and return the oldest node of the
`minFreq` bucket (`head.prev`), deleting the bucket if that emptied it.
`none` models the nil dereference when `freqMap[minFreq]` is absent (and the
sentinel-only corruption when it is empty — unreachable). -/
def removeLFU (lfu : LFUCache α) : Option ((String × α) × LFUCache α) :=
  match flookup lfu.minFreq lfu.freqMap with
  | none => none
  | some bucket =>
    match popTail bucket with
    | none => none
    | some (front, lastNode) =>
      let freqMap2 :=
        if front.isEmpty then ferase lfu.minFreq lfu.freqMap
        else fupsert lfu.minFreq front lfu.freqMap
      some (lastNode, { lfu with freqMap := freqMap2 })

/-- lfu.go `Set`: on a new key insert a frequency-1 node, set `minFreq = 1`
and, if the size now exceeds the capacity, evict via `removeLFU`; on an
existing key update the value and touch via `updateFreq`. -/
def Set (lfu : LFUCache α) (key : String) (value : α) : Option (LFUCache α) :=
  match alookup key lfu.cache with
  | none =>
    let lfu1 := addNode lfu key value 1
    let lfu2 := { lfu1 with cache := aupsert key 1 lfu1.cache,
                            size := lfu1.size + 1,
                            minFreq := 1 }
    if lfu2.size > lfu2.maxSize then
      match removeLFU lfu2 with
      | none => none
      | some (victim, lfu3) =>
        some { lfu3 with cache := aerase victim.1 lfu3.cache,
                         size := lfu3.size - 1 }
    else
      some lfu2
  | some freq =>
    -- node.value = value, then the touch
    updateFreq lfu key value freq

/-- lfu.go `Get`: a hit reads the value and touches the node via
`updateFreq`; a miss returns `(nil, false)`. -/
def Get (lfu : LFUCache α) (key : String) : Option (Option α × LFUCache α) :=
  match alookup key lfu.cache with
  | none => some (none, lfu)
  | some freq =>
    match flookup freq lfu.freqMap with
    | none => none
    | some bucket =>
      match alookup key bucket with
      | none => none  -- node not in its bucket: structurally unreachable
      | some value =>
        match updateFreq lfu key value freq with
        | none => none
        | some lfu2 => some (some value, lfu2)

/-- lfu.go `Delete`: unlink the node, remove it from the map, decrement the
size; if its bucket emptied, delete the bucket and — when it carried
`minFreq` and entries remain — recompute `minFreq` by scanning the remaining
bucket keys, starting the scan at 1. -/
def Delete (lfu : LFUCache α) (key : String) : Option (LFUCache α) :=
  match alookup key lfu.cache with
  | none => some lfu
  | some freq =>
    match flookup freq lfu.freqMap with
    | none => none  -- freqMap[node.freq] nil: the emptiness check panics
    | some bucket =>
      let bucket2 := bucket.filter (fun p => p.1 ≠ key)
      let cache2 := aerase key lfu.cache
      let size2 := lfu.size - 1
      if bucket2.isEmpty then
        let freqMap2 := ferase freq lfu.freqMap
        let minFreq2 :=
          if lfu.minFreq = freq ∧ size2 > 0 then
            (freqMap2.map Prod.fst).foldl
              (fun m f => if f < m then f else m) 1
          else
            lfu.minFreq
        some { lfu with cache := cache2, size := size2,
                        freqMap := freqMap2, minFreq := minFreq2 }
      else
        some { lfu with cache := cache2, size := size2,
                        freqMap := fupsert freq bucket2 lfu.freqMap }

/-- lfu.go `Clear`. -/
def Clear (lfu : LFUCache α) : LFUCache α :=
  { lfu with cache := [], freqMap := [], size := 0, minFreq := 0 }

/-- lfu.go `Size`. -/
def Size (lfu : LFUCache α) : Int := lfu.size

/-- The body of the eviction loop of lfu.go `Resize`: `removeLFU` while
`size > MaxSize`.  `removeLFU` only rewires the buckets, so each pass lowers
the stored size counter by exactly one and the loop runs exactly
`(size - MaxSize)⁺` passes; that count is carried as the `fuel` argument to
keep the recursion structural. -/
def evictLoopGo : Nat → Int → Int → List (String × Int) →
    List (Int × Bucket α) → Int → Option (LFUCache α)
  | 0, maxSize, size, cache, freqMap, minFreq =>
    some ⟨maxSize, size, cache, freqMap, minFreq⟩
  | fuel + 1, maxSize, size, cache, freqMap, minFreq =>
    if size > maxSize then
      match removeLFU ⟨maxSize, size, cache, freqMap, minFreq⟩ with
      | none => none
      | some (victim, lfu2) =>
        evictLoopGo fuel maxSize (size - 1) (aerase victim.1 lfu2.cache)
          lfu2.freqMap lfu2.minFreq
    else
      some ⟨maxSize, size, cache, freqMap, minFreq⟩

/-- The eviction loop of lfu.go `Resize`: `removeLFU` while `size > MaxSize`. -/
def evictLoop (maxSize size : Int) (cache : List (String × Int))
    (freqMap : List (Int × Bucket α)) (minFreq : Int) : Option (LFUCache α) :=
  evictLoopGo (size - maxSize).toNat maxSize size cache freqMap minFreq

/-- lfu.go `Resize`: reject `newSize ≤ 0`, otherwise set the capacity and
evict minimum-frequency nodes until the size fits. -/
def Resize (lfu : LFUCache α) (newSize : Int) :
    Option (Except LCError (LFUCache α)) :=
  if newSize ≤ 0 then some (.error .invalidMaxSize)
  else
    match evictLoop newSize lfu.size lfu.cache lfu.freqMap lfu.minFreq with
    | none => none
    | some lfu2 => some (.ok lfu2)

/-- Apply one engine-contract operation to an `LFUCache`; `none` models a
run-time panic, a failed `Resize` leaves the state unchanged. -/
def apply (lfu : LFUCache α) : CacheOp α → Option (LFUCache α)
  | .set k v => lfu.Set k v
  | .get k => (lfu.Get k).map Prod.snd
  | .del k => lfu.Delete k
  | .clear => some lfu.Clear
  | .resize n =>
    match lfu.Resize n with
    | none => none
    | some (.error _) => some lfu
    | some (.ok lfu2) => some lfu2

/-- Run an operation sequence from a given LFU state. -/
def runFrom (lfu : LFUCache α) : List (CacheOp α) → Option (LFUCache α)
  | [] => some lfu
  | op :: rest =>
    match lfu.apply op with
    | none => none
    | some lfu2 => runFrom lfu2 rest

/-- Run an operation sequence on a fresh LFU cache of the given capacity. -/
def run (α : Type) (maxSize : Int) (ops : List (CacheOp α)) :
    Option (LFUCache α) :=
  runFrom (fresh α maxSize) ops

end LFUCache

/-! ## Configuration validation and construction routing (littlecache.go) -/

/-- The `EvictionPolicy` constants (`iota`-valued Go `int`s). -/
def NoEviction : Int := 0

/-- The LRU policy selector. -/
def LRU : Int := 1

/-- The LFU policy selector. -/
def LFU : Int := 2

/-- littlecache.go `Config`: `MaxSize` and `EvictionPolicy`. -/
structure Config where
  maxSize : Int
  evictionPolicy : Int
deriving DecidableEq, Repr

/-- littlecache.go `Config.Validate`: `some e` is the returned error, `none`
is a nil error. -/
def Config.Validate (c : Config) : Option LCError :=
  if c.maxSize ≤ 0 then some .invalidMaxSize
  else if c.evictionPolicy < NoEviction ∨ c.evictionPolicy > LFU then
    some .invalidEvictionPolicy
  else none

/-- def.go `NewDefCache`. -/
def NewDefCache (α : Type) (c : Config) : Except LCError (DefCache α) :=
  match c.Validate with
  | some e => .error e
  | none => .ok (DefCache.fresh α c.maxSize)

/-- lru.go `NewLRUCache`. -/
def NewLRUCache (α : Type) (c : Config) : Except LCError (LRUCache α) :=
  match c.Validate with
  | some e => .error e
  | none => .ok (LRUCache.fresh α c.maxSize)

/-- lfu.go `NewLFUCache`. -/
def NewLFUCache (α : Type) (c : Config) : Except LCError (LFUCache α) :=
  match c.Validate with
  | some e => .error e
  | none => .ok (LFUCache.fresh α c.maxSize)

/-- A constructed engine instance, as returned by `NewLittleCache`. -/
inductive Engine (α : Type) where
  | lruEngine (s : LRUCache α)
  | lfuEngine (s : LFUCache α)
deriving DecidableEq, Repr

/-- littlecache.go `NewLittleCache`: validate, then route on the policy
selector; the `switch` has cases only for `LRU` and `LFU`, every other
selector — `NoEviction` included — falls to the default branch and fails
with `ErrInvalidEvictionPolicy`. -/
def NewLittleCache (α : Type) (c : Config) : Except LCError (Engine α) :=
  match c.Validate with
  | some e => .error e
  | none =>
    if c.evictionPolicy = LRU then
      (NewLRUCache α c).map .lruEngine
    else if c.evictionPolicy = LFU then
      (NewLFUCache α c).map .lfuEngine
    else
      .error .invalidEvictionPolicy

/-! ## TTLCache: the TTL decorator (ttl.go)

The decorator wraps one `LittleCache` engine through the interface
`{Set, Get, Delete, Clear, Size, Resize}`; the wrapped engine is abstracted
as a state type `σ` with its operation table.  Instants and durations are
`Int` nanoseconds and `time.Now()` is the explicit `now` argument. -/

/-- ttl.go `TTLEntry`: a stored value plus its absolute expiration instant. -/
structure TTLEntry (α : Type) where
  value : α
  expiresAt : Int
deriving DecidableEq, Repr

/-- ttl.go `TTLEntry.IsExpired`: `time.Now().After(ExpiresAt)` — strictly
after. -/
def TTLEntry.IsExpired (e : TTLEntry α) (now : Int) : Bool :=
  now > e.expiresAt

/-- The `LittleCache` interface consumed by the decorator (`Get` may mutate
the engine: LRU/LFU touch on read). -/
structure EngineOps (σ : Type) (α : Type) where
  setOp : σ → String → α → σ
  getOp : σ → String → Option α × σ
  deleteOp : σ → String → σ
  clearOp : σ → σ
  sizeOp : σ → Int
  resizeOp : σ → Int → Except LCError σ

/-- State of `TTLCache`: the wrapped engine, the TTL side map and the default
TTL. -/
structure TTLCache (σ : Type) (α : Type) where
  engine : σ
  ttlEntries : List (String × TTLEntry α)
  defaultTTL : Int
deriving DecidableEq, Repr

namespace TTLCache

/-- ttl.go `SetWithTTL`: record `expiresAt = now + ttl` in the TTL map and
forward the write to the wrapped engine.  Total: it never rejects, whatever
the sign of `ttl`. -/
def SetWithTTL (ops : EngineOps σ α) (now : Int) (t : TTLCache σ α)
    (key : String) (value : α) (ttl : Int) : TTLCache σ α :=
  { t with ttlEntries := aupsert key ⟨value, now + ttl⟩ t.ttlEntries,
           engine := ops.setOp t.engine key value }

/-- ttl.go `Set`: `SetWithTTL` with the default TTL. -/
def Set (ops : EngineOps σ α) (now : Int) (t : TTLCache σ α)
    (key : String) (value : α) : TTLCache σ α :=
  SetWithTTL ops now t key value t.defaultTTL

/-- ttl.go `Delete`: remove the key from both the TTL map and the wrapped
engine. -/
def Delete (ops : EngineOps σ α) (t : TTLCache σ α) (key : String) :
    TTLCache σ α :=
  { t with ttlEntries := aerase key t.ttlEntries,
           engine := ops.deleteOp t.engine key }

/-- ttl.go `Get`: no TTL record — not found; expired record — delete both
records (lazy expiration) and report not found; otherwise delegate to the
`Get` of the wrapped engine and return its result. -/
def Get (ops : EngineOps σ α) (now : Int) (t : TTLCache σ α) (key : String) :
    Option α × TTLCache σ α :=
  match alookup key t.ttlEntries with
  | none => (none, t)
  | some ttlEntry =>
    if ttlEntry.IsExpired now then
      (none, Delete ops t key)
    else
      let (v, engine2) := ops.getOp t.engine key
      (v, { t with engine := engine2 })

/-- ttl.go `Clear`. -/
def Clear (ops : EngineOps σ α) (t : TTLCache σ α) : TTLCache σ α :=
  { t with ttlEntries := [], engine := ops.clearOp t.engine }

/-- ttl.go `Size`: the count of TTL-map entries that are not expired. -/
def Size (now : Int) (t : TTLCache σ α) : Int :=
  ((t.ttlEntries.filter (fun p => !(p.2.IsExpired now))).length : Int)

/-- ttl.go `Resize`: delegate to the wrapped engine; the TTL map is
unaffected. -/
def Resize (ops : EngineOps σ α) (t : TTLCache σ α) (newSize : Int) :
    Except LCError (TTLCache σ α) :=
  (ops.resizeOp t.engine newSize).map (fun engine2 => { t with engine := engine2 })

/-- ttl.go `GetTTL`: the remaining duration until expiration, or not found
when absent or already expired. -/
def GetTTL (now : Int) (t : TTLCache σ α) (key : String) : Int × Bool :=
  match alookup key t.ttlEntries with
  | none => (0, false)
  | some entry =>
    if entry.IsExpired now then (0, false)
    else (entry.expiresAt - now, true)

/-- ttl.go `ExtendTTL`: when present and not expired, add `additionalTime` to
the existing `ExpiresAt` of the entry and report success; otherwise report failure
and change nothing. -/
def ExtendTTL (now : Int) (t : TTLCache σ α) (key : String)
    (additionalTime : Int) : Bool × TTLCache σ α :=
  match alookup key t.ttlEntries with
  | none => (false, t)
  | some entry =>
    if entry.IsExpired now then (false, t)
    else
      (true,
       { t with ttlEntries :=
           (aupsert key ⟨entry.value, entry.expiresAt + additionalTime⟩
             t.ttlEntries) })

/-- ttl.go `cleanup` (one tick of the background sweep): delete every expired
TTL record and its wrapped entry. -/
def cleanup (ops : EngineOps σ α) (now : Int) (t : TTLCache σ α) :
    TTLCache σ α :=
  let expiredKeys := (t.ttlEntries.filter (fun p => now > p.2.expiresAt)).map
    Prod.fst
  expiredKeys.foldl (fun acc k => Delete ops acc k) t

end TTLCache

/-- The operation table of the baseline `DefCache`, used to instantiate the
decorator at a concrete wrapped engine. -/
def DefCache.ops (α : Type) : EngineOps (DefCache α) α where
  setOp := DefCache.Set
  getOp := fun d k => (d.Get k, d)
  deleteOp := DefCache.Delete
  clearOp := fun d => d.Clear
  sizeOp := DefCache.Size
  resizeOp := DefCache.Resize

/-! ## Helper lemmas about the association-list map embedding -/

theorem alookup_nil {β : Type} (k : String) : alookup k ([] : List (String × β)) = none := rfl

theorem alookup_cons {β : Type} (k : String) (q : String × β) (l : List (String × β)) :
    alookup k (q :: l) = if q.1 = k then some q.2 else alookup k l := by
  by_cases h : q.1 = k
  · simp [alookup, List.find?, h]
  · simp [alookup, List.find?, h]

theorem areplace_cons {β : Type} (k : String) (v : β) (q : String × β) (l : List (String × β)) :
    areplace k v (q :: l) = (if q.1 = k then (k, v) else q) :: areplace k v l := by
  simp [areplace]

theorem aerase_cons {β : Type} (k : String) (q : String × β) (l : List (String × β)) :
    aerase k (q :: l) = if q.1 = k then aerase k l else q :: aerase k l := by
  by_cases h : q.1 = k <;> simp [aerase, List.filter, h]

theorem alookup_aerase_self {β : Type} (k : String) (l : List (String × β)) :
    alookup k (aerase k l) = none := by
  induction l with
  | nil => rfl
  | cons q tl ih =>
    rw [aerase_cons]
    by_cases h : q.1 = k
    · rw [if_pos h]; exact ih
    · rw [if_neg h, alookup_cons, if_neg h]; exact ih

theorem alookup_aerase_ne {β : Type} (k k2 : String) (hne : k2 ≠ k)
    (l : List (String × β)) : alookup k2 (aerase k l) = alookup k2 l := by
  induction l with
  | nil => rfl
  | cons q tl ih =>
    rw [aerase_cons, alookup_cons]
    by_cases h : q.1 = k
    · rw [if_pos h, if_neg (by rw [h]; exact fun hq => hne hq.symm)]; exact ih
    · rw [if_neg h, alookup_cons]
      by_cases h2 : q.1 = k2
      · rw [if_pos h2, if_pos h2]
      · rw [if_neg h2, if_neg h2]; exact ih

theorem alookup_areplace_self {β : Type} (k : String) (v : β)
    (l : List (String × β)) (h : l.any (fun p => p.1 = k) = true) :
    alookup k (areplace k v l) = some v := by
  induction l with
  | nil => simp at h
  | cons q tl ih =>
    rw [areplace_cons]
    by_cases hq : q.1 = k
    · rw [if_pos hq, alookup_cons, if_pos rfl]
    · rw [if_neg hq, alookup_cons, if_neg hq]
      refine ih ?_
      simp only [List.any_cons, Bool.or_eq_true, decide_eq_true_eq] at h
      rcases h with h | h
      · exact absurd h hq
      · exact h

theorem alookup_areplace_ne {β : Type} (k k2 : String) (hne : k2 ≠ k) (v : β)
    (l : List (String × β)) : alookup k2 (areplace k v l) = alookup k2 l := by
  induction l with
  | nil => rfl
  | cons q tl ih =>
    rw [areplace_cons, alookup_cons]
    by_cases hq : q.1 = k
    · rw [if_pos hq, if_neg (fun hk => hne hk.symm), alookup_cons,
        if_neg (by rw [hq]; exact fun hq2 => hne hq2.symm)]
      exact ih
    · rw [if_neg hq, alookup_cons]
      by_cases h2 : q.1 = k2
      · rw [if_pos h2, if_pos h2]
      · rw [if_neg h2, if_neg h2]; exact ih

theorem alookup_aupsert_self {β : Type} (k : String) (v : β)
    (l : List (String × β)) : alookup k (aupsert k v l) = some v := by
  rw [aupsert]
  by_cases h : l.any (fun p => p.1 = k) = true
  · rw [if_pos h]; exact alookup_areplace_self k v l h
  · rw [if_neg h, alookup_cons, if_pos rfl]

theorem alookup_aupsert_ne {β : Type} (k k2 : String) (hne : k2 ≠ k) (v : β)
    (l : List (String × β)) : alookup k2 (aupsert k v l) = alookup k2 l := by
  rw [aupsert]
  by_cases h : l.any (fun p => p.1 = k) = true
  · rw [if_pos h]; exact alookup_areplace_ne k k2 hne v l
  · rw [if_neg h, alookup_cons, if_neg (fun hk => hne hk.symm)]

theorem aupsert_forall_key {β : Type} (k : String) (v : β)
    (l : List (String × β)) :
    ∀ p ∈ aupsert k v l, p.1 = k → p.2 = v := by
  intro p hp hpk
  rw [aupsert] at hp
  by_cases h : l.any (fun p => p.1 = k) = true
  · rw [if_pos h] at hp
    rw [areplace] at hp
    rcases List.mem_map.mp hp with ⟨q, _hq, hqe⟩
    by_cases hqk : q.1 = k
    · rw [if_pos hqk] at hqe; rw [hqe.symm]
    · rw [if_neg hqk] at hqe; exact absurd (hqe ▸ hpk) hqk
  · rw [if_neg h] at hp
    rcases List.mem_cons.mp hp with hh | ht
    · rw [hh]
    · exfalso
      exact h (List.any_eq_true.mpr ⟨p, ht, by simp [hpk]⟩)

theorem alookup_forall_of_nodup {β : Type} (k : String) (e : β)
    (l : List (String × β)) (hnd : (l.map Prod.fst).Nodup)
    (h : alookup k l = some e) : ∀ p ∈ l, p.1 = k → p.2 = e := by
  induction l with
  | nil => intro p hp; simp at hp
  | cons q tl ih =>
    rw [alookup_cons] at h
    intro p hp hpk
    rcases List.mem_cons.mp hp with hh | ht
    · by_cases hq : q.1 = k
      · rw [if_pos hq] at h
        rw [hh]; exact Option.some_injective β h
      · exact absurd (hh ▸ hpk) hq
    · by_cases hq : q.1 = k
      · exfalso
        have hnotin : q.1 ∉ tl.map Prod.fst := (List.nodup_cons.mp hnd).1
        exact hnotin (hq ▸ hpk ▸ List.mem_map_of_mem Prod.fst ht)
      · rw [if_neg hq] at h
        exact ih (List.nodup_cons.mp hnd).2 h p ht hpk

theorem filter_expired_aerase {α : Type} (now : Int) (k : String)
    (l : List (String × TTLEntry α))
    (h : ∀ p ∈ l, p.1 = k → p.2.IsExpired now = true) :
    l.filter (fun p => !(p.2.IsExpired now))
      = (aerase k l).filter (fun p => !(p.2.IsExpired now)) := by
  induction l with
  | nil => rfl
  | cons q tl ih =>
    have htl : ∀ p ∈ tl, p.1 = k → p.2.IsExpired now = true :=
      fun p hp => h p (List.mem_cons_of_mem q hp)
    rw [aerase_cons]
    by_cases hq : q.1 = k
    · rw [if_pos hq]
      have hexp : q.2.IsExpired now = true := h q (List.mem_cons_self q tl) hq
      rw [List.filter_cons, hexp]
      simpa using ih htl
    · rw [if_neg hq, List.filter_cons, List.filter_cons]
      rw [ih htl]

/-! ## Size-vs-capacity invariants of the three engines -/

theorem lru_evictLoopGo_le {α : Type} (m : Int) (fuel : Nat) :
    ∀ (l : List (String × α)) (sz : Int), (sz - m).toNat = fuel →
      ∀ (l2 : List (String × α)) (sz2 : Int),
        LRUCache.evictLoopGo m fuel l sz = some (l2, sz2) → sz2 ≤ m := by
  induction fuel with
  | zero =>
    intro l sz hf l2 sz2 h
    rw [LRUCache.evictLoopGo] at h
    have h2 : sz = sz2 := congrArg Prod.snd (Option.some_injective _ h)
    omega
  | succ n ih =>
    intro l sz hf l2 sz2 h
    rw [LRUCache.evictLoopGo] at h
    split at h
    · rename_i hgt
      split at h
      · exact absurd h (by simp)
      · rename_i pr front tailN hp
        exact ih front (sz - 1) (by omega) l2 sz2 h
    · have h2 : sz = sz2 := congrArg Prod.snd (Option.some_injective _ h)
      rename_i hgt
      omega

theorem lru_evictLoop_le {α : Type} (m : Int) (l : List (String × α)) (sz : Int)
    (l2 : List (String × α)) (sz2 : Int)
    (h : LRUCache.evictLoop m l sz = some (l2, sz2)) : sz2 ≤ m :=
  lru_evictLoopGo_le m (sz - m).toNat l sz rfl l2 sz2 h

theorem lru_apply_inv {α : Type} (s : LRUCache α) (op : CacheOp α)
    (s2 : LRUCache α) (h0 : 0 ≤ s.maxSize) (h1 : s.size ≤ s.maxSize)
    (h : LRUCache.apply s op = some s2) :
    0 ≤ s2.maxSize ∧ s2.size ≤ s2.maxSize := by
  cases op with
  | set k v =>
    simp only [LRUCache.apply, LRUCache.Set] at h
    split at h
    · have := Option.some_injective _ h
      subst this
      exact ⟨h0, h1⟩
    · split at h
      · split at h
        · exact absurd h (by simp)
        · have := Option.some_injective _ h
          subst this
          exact ⟨h0, by simpa using h1⟩
      · have := Option.some_injective _ h
        subst this
        refine ⟨h0, ?_⟩
        simp only
        omega
  | get k =>
    simp only [LRUCache.apply, LRUCache.Get] at h
    split at h
    · have := Option.some_injective _ h
      subst this
      exact ⟨h0, h1⟩
    · have := Option.some_injective _ h
      subst this
      exact ⟨h0, h1⟩
  | del k =>
    simp only [LRUCache.apply, LRUCache.Delete] at h
    split at h
    · have := Option.some_injective _ h
      subst this
      refine ⟨h0, ?_⟩
      simp only
      omega
    · have := Option.some_injective _ h
      subst this
      exact ⟨h0, h1⟩
  | clear =>
    simp only [LRUCache.apply, LRUCache.Clear] at h
    have := Option.some_injective _ h
    subst this
    exact ⟨h0, h0⟩
  | resize n =>
    simp only [LRUCache.apply] at h
    split at h
    · exact absurd h (by simp)
    · -- a failed Resize returns its error and keeps the state
      have := Option.some_injective _ h
      subst this
      exact ⟨h0, h1⟩
    · -- a successful Resize installs the new capacity after the evict loop
      rename_i lru2 heq
      have := Option.some_injective _ h
      subst this
      rw [LRUCache.Resize] at heq
      split at heq
      · exact absurd (Option.some_injective _ heq) (by simp)
      · rename_i hn
        split at heq
        · exact absurd heq (by simp)
        · rename_i l2 sz2 hloop
          have h3 := Option.some_injective _ heq
          injection h3 with h4
          rw [h4.symm]
          refine ⟨?_, ?_⟩
          · show (0 : Int) ≤ n
            omega
          · show sz2 ≤ n
            exact lru_evictLoop_le n s.list s.size l2 sz2 hloop

theorem lru_runFrom_inv {α : Type} (ops : List (CacheOp α)) (s : LRUCache α)
    (h0 : 0 ≤ s.maxSize) (h1 : s.size ≤ s.maxSize) (s2 : LRUCache α)
    (h : LRUCache.runFrom s ops = some s2) :
    0 ≤ s2.maxSize ∧ s2.size ≤ s2.maxSize := by
  induction ops generalizing s with
  | nil =>
    have := Option.some_injective _ h
    subst this
    exact ⟨h0, h1⟩
  | cons op rest ih =>
    simp only [LRUCache.runFrom] at h
    split at h
    · exact absurd h (by simp)
    · rename_i s1 hstep
      have hinv := lru_apply_inv s op s1 h0 h1 hstep
      exact ih s1 hinv.1 hinv.2 h

theorem updateFreq_preserves {α : Type} (s : LFUCache α) (k : String) (v : α)
    (f : Int) (s2 : LFUCache α) (h : LFUCache.updateFreq s k v f = some s2) :
    s2.size = s.size ∧ s2.maxSize = s.maxSize := by
  simp only [LFUCache.updateFreq, LFUCache.addNode] at h
  split at h
  · exact absurd h (by simp)
  · split at h
    · have := Option.some_injective _ h
      subst this
      exact ⟨rfl, rfl⟩
    · have := Option.some_injective _ h
      subst this
      exact ⟨rfl, rfl⟩

theorem removeLFU_preserves {α : Type} (s : LFUCache α) (victim : String × α)
    (s2 : LFUCache α) (h : LFUCache.removeLFU s = some (victim, s2)) :
    s2.size = s.size ∧ s2.maxSize = s.maxSize := by
  simp only [LFUCache.removeLFU] at h
  split at h
  · exact absurd h (by simp)
  · split at h
    · exact absurd h (by simp)
    · have := Option.some_injective _ h
      injection this with hv hs
      rw [hs.symm]
      exact ⟨rfl, rfl⟩

theorem lfu_evictLoopGo_spec {α : Type} (m : Int) (fuel : Nat) :
    ∀ (sz : Int) (c : List (String × Int)) (fm : List (Int × Bucket α))
      (mf : Int), (sz - m).toNat = fuel → ∀ (s2 : LFUCache α),
        LFUCache.evictLoopGo fuel m sz c fm mf = some s2 →
          s2.maxSize = m ∧ s2.size ≤ m := by
  induction fuel with
  | zero =>
    intro sz c fm mf hf s2 h
    rw [LFUCache.evictLoopGo] at h
    have := Option.some_injective _ h
    rw [this.symm]
    exact ⟨rfl, by show sz ≤ m; omega⟩
  | succ n ih =>
    intro sz c fm mf hf s2 h
    rw [LFUCache.evictLoopGo] at h
    split at h
    · rename_i hgt
      split at h
      · exact absurd h (by simp)
      · rename_i pr victim lfu2 hr
        exact ih (sz - 1) (aerase victim.1 lfu2.cache) lfu2.freqMap
          lfu2.minFreq (by omega) s2 h
    · rename_i hgt
      have := Option.some_injective _ h
      rw [this.symm]
      exact ⟨rfl, by show sz ≤ m; omega⟩

theorem lfu_evictLoop_spec {α : Type} (m sz : Int) (c : List (String × Int))
    (fm : List (Int × Bucket α)) (mf : Int) (s2 : LFUCache α)
    (h : LFUCache.evictLoop m sz c fm mf = some s2) :
    s2.maxSize = m ∧ s2.size ≤ m :=
  lfu_evictLoopGo_spec m (sz - m).toNat sz c fm mf rfl s2 h

theorem lfu_apply_inv {α : Type} (s : LFUCache α) (op : CacheOp α)
    (s2 : LFUCache α) (h0 : 0 ≤ s.maxSize) (h1 : s.size ≤ s.maxSize)
    (h : LFUCache.apply s op = some s2) :
    0 ≤ s2.maxSize ∧ s2.size ≤ s2.maxSize := by
  cases op with
  | set k v =>
    simp only [LFUCache.apply, LFUCache.Set] at h
    split at h
    · -- new key: insert at frequency 1, evict if over capacity
      split at h
      · split at h
        · exact absurd h (by simp)
        · rename_i hgt pr victim lfu3 hrem
          have := Option.some_injective _ h
          subst this
          have hpres := removeLFU_preserves _ victim lfu3 hrem
          simp only [LFUCache.addNode] at hpres hgt
          refine ⟨?_, ?_⟩
          · show (0 : Int) ≤ lfu3.maxSize
            omega
          · show lfu3.size - 1 ≤ lfu3.maxSize
            omega
      · rename_i hle
        have := Option.some_injective _ h
        subst this
        simp only [LFUCache.addNode] at hle
        refine ⟨?_, ?_⟩
        · show (0 : Int) ≤ s.maxSize
          omega
        · show s.size + 1 ≤ s.maxSize
          omega
    · -- existing key: value update plus touch, size unchanged
      rename_i f _
      have hpres := updateFreq_preserves s k v f s2 h
      omega
  | get k =>
    simp only [LFUCache.apply, LFUCache.Get] at h
    rw [Option.map_eq_some'] at h
    obtain ⟨pr, hpr, hsnd⟩ := h
    split at hpr
    · -- miss: state unchanged
      obtain rfl := Option.some_injective _ hpr
      have hs : s = s2 := hsnd
      subst hs
      exact ⟨h0, h1⟩
    · -- hit: the touch preserves size and capacity
      rename_i f heqf
      split at hpr
      · exact absurd hpr (by simp)
      · rename_i bucket heqb
        split at hpr
        · exact absurd hpr (by simp)
        · rename_i v2 heqv
          split at hpr
          · exact absurd hpr (by simp)
          · rename_i lfu2 hupd
            obtain rfl := Option.some_injective _ hpr
            have hpres := updateFreq_preserves s k v2 f lfu2 hupd
            have hs : lfu2 = s2 := hsnd
            subst hs
            omega
  | del k =>
    simp only [LFUCache.apply, LFUCache.Delete] at h
    split at h
    · have := Option.some_injective _ h
      subst this
      exact ⟨h0, h1⟩
    · split at h
      · exact absurd h (by simp)
      · split at h
        · have := Option.some_injective _ h
          subst this
          refine ⟨h0, ?_⟩
          show s.size - 1 ≤ s.maxSize
          omega
        · have := Option.some_injective _ h
          subst this
          refine ⟨h0, ?_⟩
          show s.size - 1 ≤ s.maxSize
          omega
  | clear =>
    simp only [LFUCache.apply, LFUCache.Clear] at h
    have := Option.some_injective _ h
    subst this
    exact ⟨h0, h0⟩
  | resize n =>
    simp only [LFUCache.apply] at h
    split at h
    · exact absurd h (by simp)
    · have := Option.some_injective _ h
      subst this
      exact ⟨h0, h1⟩
    · rename_i lfu2 heq
      have := Option.some_injective _ h
      subst this
      rw [LFUCache.Resize] at heq
      split at heq
      · exact absurd (Option.some_injective _ heq) (by simp)
      · rename_i hn
        split at heq
        · exact absurd heq (by simp)
        · rename_i lfu3 hloop
          have h3 := Option.some_injective _ heq
          injection h3 with h4
          have hspec := lfu_evictLoop_spec n s.size s.cache s.freqMap
            s.minFreq lfu3 hloop
          rw [h4.symm]
          omega

theorem lfu_runFrom_inv {α : Type} (ops : List (CacheOp α)) (s : LFUCache α)
    (h0 : 0 ≤ s.maxSize) (h1 : s.size ≤ s.maxSize) (s2 : LFUCache α)
    (h : LFUCache.runFrom s ops = some s2) :
    0 ≤ s2.maxSize ∧ s2.size ≤ s2.maxSize := by
  induction ops generalizing s with
  | nil =>
    have := Option.some_injective _ h
    subst this
    exact ⟨h0, h1⟩
  | cons op rest ih =>
    simp only [LFUCache.runFrom] at h
    split at h
    · exact absurd h (by simp)
    · rename_i s1 hstep
      have hinv := lfu_apply_inv s op s1 h0 h1 hstep
      exact ih s1 hinv.1 hinv.2 h

theorem def_apply_inv {α : Type} (d : DefCache α) (op : CacheOp α)
    (h0 : 0 ≤ d.maxSize) (h1 : (d.data.length : Int) ≤ d.maxSize)
    (hop : DefCache.goodResizeStep d op = true) :
    0 ≤ (d.apply op).maxSize ∧
      (((d.apply op).data.length : Int) ≤ (d.apply op).maxSize) := by
  cases op with
  | set k v =>
    simp only [DefCache.apply, DefCache.Set]
    split
    · refine ⟨h0, ?_⟩
      show (((areplace k v d.data).length : Int)) ≤ d.maxSize
      rw [areplace, List.length_map]
      exact h1
    · split
      · exact ⟨h0, h1⟩
      · rename_i hfull
        refine ⟨h0, ?_⟩
        show ((((k, v) :: d.data).length : Int)) ≤ d.maxSize
        rw [List.length_cons]
        push_cast
        omega
  | get k => exact ⟨h0, h1⟩
  | del k =>
    simp only [DefCache.apply, DefCache.Delete]
    refine ⟨h0, ?_⟩
    show (((aerase k d.data).length : Int)) ≤ d.maxSize
    have hle : (aerase k d.data).length ≤ d.data.length :=
      List.length_filter_le _ _
    have hle2 : ((aerase k d.data).length : Int) ≤ (d.data.length : Int) :=
      Nat.cast_le.mpr hle
    omega
  | clear =>
    simp only [DefCache.apply, DefCache.Clear]
    refine ⟨h0, ?_⟩
    show ((([] : List (String × α)).length : Int)) ≤ d.maxSize
    simpa using h0
  | resize n =>
    simp only [DefCache.goodResizeStep, Bool.or_eq_true, decide_eq_true_eq] at hop
    by_cases hn : n ≤ 0
    · simp only [DefCache.apply, DefCache.Resize, if_pos hn]
      exact ⟨h0, h1⟩
    · simp only [DefCache.apply, DefCache.Resize, if_neg hn]
      refine ⟨by omega, ?_⟩
      show ((d.data.length : Int)) ≤ n
      rcases hop with hle | hle
      · exact absurd hle hn
      · exact hle

theorem def_runFrom_inv {α : Type} (ops : List (CacheOp α)) (d : DefCache α)
    (h0 : 0 ≤ d.maxSize) (h1 : (d.data.length : Int) ≤ d.maxSize)
    (hg : DefCache.goodResizes d ops = true) :
    0 ≤ (DefCache.runFrom d ops).maxSize ∧
      (((DefCache.runFrom d ops).data.length : Int)
        ≤ (DefCache.runFrom d ops).maxSize) := by
  induction ops generalizing d with
  | nil => exact ⟨h0, h1⟩
  | cons op rest ih =>
    rw [DefCache.goodResizes, Bool.and_eq_true] at hg
    obtain ⟨hop, hrest⟩ := hg
    rw [DefCache.runFrom]
    have hstep := def_apply_inv d op h0 h1 hop
    exact ih (d.apply op) hstep.1 hstep.2 hrest

/-! ## Claim C1: the capacity invariant -/

/-- C1 (counterexample): the claim as stated fails for the baseline engine.
On a baseline cache of capacity 2, after `Set(k1)`, `Set(k2)`, `Resize(1)`
the size is 2 but the capacity is 1 — the downward resize evicts nothing, so
`Size() ≤ capacity` does not hold after every operation. -/
theorem c1_capacity_invariant_counterexample :
    ¬ DefCache.Size (DefCache.run Nat 2 [.set "k1" 0, .set "k2" 0, .resize 1])
      ≤ (DefCache.run Nat 2 [.set "k1" 0, .set "k2" 0, .resize 1]).maxSize := by
  decide

/-- C1 (amended): for every capacity `c > 0` and every operation sequence,
`Size() ≤ capacity` holds after every completed operation for the LRU and LFU
engines; for the baseline no-eviction engine it holds provided no `Resize(n)`
is issued while the entry count exceeds `n` — the baseline rejects writes when
full rather than evicting, so only a downward resize below the current size
can break the bound. -/
theorem c1_capacity_invariant_amended (α : Type) (c : Int) (hc : 0 < c)
    (ops : List (CacheOp α)) :
    (∀ s, LRUCache.run α c ops = some s → LRUCache.Size s ≤ s.maxSize)
  ∧ (∀ s, LFUCache.run α c ops = some s → LFUCache.Size s ≤ s.maxSize)
  ∧ (DefCache.goodResizes (DefCache.fresh α c) ops = true →
      DefCache.Size (DefCache.run α c ops) ≤ (DefCache.run α c ops).maxSize) := by
  refine ⟨?_, ?_, ?_⟩
  · intro s hs
    exact (lru_runFrom_inv ops (LRUCache.fresh α c) (le_of_lt hc)
      (le_of_lt hc) s hs).2
  · intro s hs
    exact (lfu_runFrom_inv ops (LFUCache.fresh α c) (le_of_lt hc)
      (le_of_lt hc) s hs).2
  · intro hg
    exact (def_runFrom_inv ops (DefCache.fresh α c) (le_of_lt hc)
      (by simpa using le_of_lt hc) hg).2

/-- C1 (witness): the amended invariant evaluated on capacity 2 and the
sequence `Set(x)`, `Set(y)`, `Get(x)`, `Delete(y)`, `Resize(1)` for all three
engines. -/
theorem c1_capacity_invariant_witness :
    LRUCache.Size (⟨1, 1, [("x", 0)]⟩ : LRUCache Nat)
      ≤ (⟨1, 1, [("x", 0)]⟩ : LRUCache Nat).maxSize
  ∧ LFUCache.Size (⟨1, 1, [("x", 2)], [(2, [("x", 0)])], 1⟩ : LFUCache Nat)
      ≤ (⟨1, 1, [("x", 2)], [(2, [("x", 0)])], 1⟩ : LFUCache Nat).maxSize
  ∧ DefCache.Size (DefCache.run Nat 2
        [.set "x" 0, .set "y" 1, .get "x", .del "y", .resize 1])
      ≤ (DefCache.run Nat 2
          [.set "x" 0, .set "y" 1, .get "x", .del "y", .resize 1]).maxSize := by
  have h := c1_capacity_invariant_amended Nat 2 (by decide)
    [.set "x" 0, .set "y" 1, .get "x", .del "y", .resize 1]
  exact ⟨h.1 _ (by decide), h.2.1 _ (by decide), h.2.2 (by decide)⟩

/-! ## Claim C2: the LRU order property -/

/-- C2 (counterexample): on an LRU cache of capacity 2, after `Set(A)`,
`Set(B)`, `Set(C)`, `Get(A)`, `Set(D)` the cache does not contain `{A, D}`:
key A is absent (it was already evicted when C was inserted) and the actual
contents are `{D, C}`. -/
theorem c2_lru_order_counterexample :
    (LRUCache.run Nat 2
        [.set "A" 1, .set "B" 2, .set "C" 3, .get "A", .set "D" 4]).map
      (fun s => (alookup "A" s.list, s.list.map Prod.fst))
      = some (none, ["D", "C"]) := by
  decide

/-- C2 (amended): on an LRU cache of capacity 2, `Set(C)` already evicts A
(the least recently used of {A, B}), so the subsequent `Get(A)` is a miss and
touches nothing; `Set(D)` then evicts B, leaving the cache containing exactly
`{C, D}` with D most recent. -/
theorem c2_lru_order_amended :
    (LRUCache.run Nat 2 [.set "A" 1, .set "B" 2, .set "C" 3]).map
      (fun s => (s.list.map Prod.fst, (LRUCache.Get s "A").1))
      = some (["C", "B"], none)
  ∧ (LRUCache.run Nat 2
        [.set "A" 1, .set "B" 2, .set "C" 3, .get "A", .set "D" 4]).map
      (fun s => s.list.map Prod.fst)
      = some ["D", "C"] := by
  constructor
  · decide
  · decide

/-! ## Claim C3: the `minFrequency` invariant of the LFU engine -/

/-- C3 (failing-input evaluation): on an LFU cache of capacity 3, after
`Set(A)`, `Get(A)` (A reaches frequency 2 and `minFrequency` becomes 2),
`Set(B)` (`minFrequency` back to 1), `Delete(B)` empties and removes the
frequency-1 bucket while A remains; the recompute scan starts at 1 and only
lowers, so `minFrequency` is left at 1 although the only remaining bucket has
frequency 2 — the claimed invariant is violated by the code. -/
theorem c3_lfu_minfreq_recompute_bug :
    (LFUCache.run Nat 3 [.set "A" 0, .get "A", .set "B" 0, .del "B"]).map
      (fun s => (s.minFreq, s.freqMap.map Prod.fst, s.size))
      = some (1, [2], 1) := by
  decide

/-! ## Claim C4: the LFU tie-break property -/

/-- C4: on an LFU cache of capacity 3, after `Set(A)`, `Set(B)`, `Set(C)`,
three `Get(A)` (frequency 4), one `Get(B)` (frequency 2), the pre-insertion
state holds exactly {A, B, C} with C untouched at frequency 1; `Set(D)` then
evicts C — the oldest node of the minimum-frequency bucket — leaving exactly
`{A, B, D}` at size 3. -/
theorem c4_lfu_tiebreak_eviction :
    (LFUCache.run Nat 3 [.set "A" 0, .set "B" 0, .set "C" 0, .get "A",
        .get "A", .get "A", .get "B"]).map
      (fun s => (s.cache.map Prod.fst, alookup "C" s.cache))
      = some (["C", "B", "A"], some 1)
  ∧ (LFUCache.run Nat 3 [.set "A" 0, .set "B" 0, .set "C" 0, .get "A",
        .get "A", .get "A", .get "B", .set "D" 0]).map
      (fun s => (s.cache.map Prod.fst, s.size, alookup "C" s.cache))
      = some (["D", "B", "A"], 3, none) := by
  constructor
  · decide
  · decide

/-! ## Claim C5: safety of LFU `Resize` -/

/-- C5 (failing-input evaluation): on an LFU cache of capacity 2, the sequence
`Set(A)`, `Set(B)`, `Get(A)`, `Get(B)`, `Set(C)` reaches a state of size 2
whose only bucket has frequency 2 while `minFrequency` is stale at 1 (the
eviction triggered by `Set(C)` emptied the frequency-1 bucket without
updating it); `Resize(1)` must then evict, `removeLFU` reads the absent
`freqMap[minFrequency]` bucket and dereferences nil — modelled as `none` —
instead of terminating normally with `Size() ≤ 1`. -/
theorem c5_lfu_resize_nil_dereference :
    (LFUCache.run Nat 2
        [.set "A" 0, .set "B" 0, .get "A", .get "B", .set "C" 0]).map
      (fun s => (s.size, s.minFreq, s.freqMap.map Prod.fst))
      = some (2, 1, [2])
  ∧ LFUCache.run Nat 2
      [.set "A" 0, .set "B" 0, .get "A", .get "B", .set "C" 0, .resize 1]
      = none := by
  constructor
  · decide
  · decide

/-! ## Claim C6: lazy expiration on the TTL decorator `Get` -/

/-- C6: for the TTL decorator `Get(k)`, over any wrapped engine: with no TTL
record the result is not-found and the state untouched; with an expired
record both the TTL record and the wrapped entry are deleted and the result
is not-found; otherwise the call delegates to the wrapped engine `Get` and
returns its result.  Consequently (last conjunct) an expired entry is already
excluded from `Size()` accounting, with no sweep involved: the size equals
the size after its lazy deletion. -/
theorem c6_ttl_get_lazy_expiration (σ α : Type) (ops : EngineOps σ α)
    (t : TTLCache σ α) (key : String) (now : Int) :
    (alookup key t.ttlEntries = none → TTLCache.Get ops now t key = (none, t))
  ∧ (∀ e, alookup key t.ttlEntries = some e → e.IsExpired now = true →
      TTLCache.Get ops now t key = (none, TTLCache.Delete ops t key)
      ∧ alookup key (TTLCache.Delete ops t key).ttlEntries = none
      ∧ (TTLCache.Delete ops t key).engine = ops.deleteOp t.engine key)
  ∧ (∀ e, alookup key t.ttlEntries = some e → e.IsExpired now = false →
      TTLCache.Get ops now t key =
        ((ops.getOp t.engine key).1,
         { t with engine := (ops.getOp t.engine key).2 }))
  ∧ ((t.ttlEntries.map Prod.fst).Nodup →
      ∀ e, alookup key t.ttlEntries = some e → e.IsExpired now = true →
        TTLCache.Size now t = TTLCache.Size now (TTLCache.Delete ops t key)) := by
  refine ⟨?_, ?_, ?_, ?_⟩
  · intro hnone
    simp only [TTLCache.Get, hnone]
  · intro e he hexp
    refine ⟨?_, ?_, ?_⟩
    · simp only [TTLCache.Get, he, hexp, if_true]
    · exact alookup_aerase_self key t.ttlEntries
    · rfl
  · intro e he hexp
    simp only [TTLCache.Get, he, hexp, Bool.false_eq_true, if_false]
  · intro hnd e he hexp
    have hall : ∀ p ∈ t.ttlEntries, p.1 = key → p.2.IsExpired now = true := by
      intro p hp hpk
      rw [alookup_forall_of_nodup key e t.ttlEntries hnd he p hp hpk]
      exact hexp
    simp only [TTLCache.Size, TTLCache.Delete]
    rw [filter_expired_aerase now key t.ttlEntries hall]

/-- C6 (witness): a TTL cache over the baseline engine holding one record for
key k, expired at observation time 150; `Get(k)` deletes both records and
reports not-found, and `Size` already reported the state without k. -/
theorem c6_ttl_get_lazy_expiration_witness :
    TTLCache.Get (DefCache.ops Nat) 150
        (⟨⟨10, [("k", 7)]⟩, [("k", ⟨7, 100⟩)], 300⟩ : TTLCache (DefCache Nat) Nat) "k"
      = (none, TTLCache.Delete (DefCache.ops Nat)
          (⟨⟨10, [("k", 7)]⟩, [("k", ⟨7, 100⟩)], 300⟩ : TTLCache (DefCache Nat) Nat) "k")
  ∧ TTLCache.Size 150
      (⟨⟨10, [("k", 7)]⟩, [("k", ⟨7, 100⟩)], 300⟩ : TTLCache (DefCache Nat) Nat)
      = TTLCache.Size 150 (TTLCache.Delete (DefCache.ops Nat)
          (⟨⟨10, [("k", 7)]⟩, [("k", ⟨7, 100⟩)], 300⟩ : TTLCache (DefCache Nat) Nat) "k") := by
  have h := c6_ttl_get_lazy_expiration (DefCache Nat) Nat (DefCache.ops Nat)
    (⟨⟨10, [("k", 7)]⟩, [("k", ⟨7, 100⟩)], 300⟩ : TTLCache (DefCache Nat) Nat) "k" 150
  exact ⟨(h.2.1 ⟨7, 100⟩ (by decide) (by decide)).1,
    h.2.2.2 (by decide) ⟨7, 100⟩ (by decide) (by decide)⟩

/-! ## Claim C7: the TTL extension contract -/

/-- C7: `ExtendTTL(k, extra)` on a present, unexpired key reports success and
adds `extra` to the existing expiration instant of that key (not to the call
time), leaving every other TTL record and the wrapped engine untouched; on an
absent or already-expired key it reports failure and changes nothing. -/
theorem c7_ttl_extend_contract (σ α : Type) (t : TTLCache σ α) (key : String)
    (extra now : Int) :
    (∀ e, alookup key t.ttlEntries = some e → e.IsExpired now = false →
      (TTLCache.ExtendTTL now t key extra).1 = true
      ∧ alookup key (TTLCache.ExtendTTL now t key extra).2.ttlEntries
          = some ⟨e.value, e.expiresAt + extra⟩
      ∧ (∀ k2, k2 ≠ key →
          alookup k2 (TTLCache.ExtendTTL now t key extra).2.ttlEntries
            = alookup k2 t.ttlEntries)
      ∧ (TTLCache.ExtendTTL now t key extra).2.engine = t.engine
      ∧ (TTLCache.ExtendTTL now t key extra).2.defaultTTL = t.defaultTTL)
  ∧ (alookup key t.ttlEntries = none →
      TTLCache.ExtendTTL now t key extra = (false, t))
  ∧ (∀ e, alookup key t.ttlEntries = some e → e.IsExpired now = true →
      TTLCache.ExtendTTL now t key extra = (false, t)) := by
  refine ⟨?_, ?_, ?_⟩
  · intro e he hexp
    have hstep : TTLCache.ExtendTTL now t key extra
        = (true, { t with ttlEntries :=
            (aupsert key ⟨e.value, e.expiresAt + extra⟩ t.ttlEntries) }) := by
      simp only [TTLCache.ExtendTTL, he, hexp, Bool.false_eq_true, if_false]
    rw [hstep]
    refine ⟨rfl, ?_, ?_, rfl, rfl⟩
    · exact alookup_aupsert_self key ⟨e.value, e.expiresAt + extra⟩ t.ttlEntries
    · intro k2 hk2
      exact alookup_aupsert_ne key k2 hk2 ⟨e.value, e.expiresAt + extra⟩
        t.ttlEntries
  · intro hnone
    simp only [TTLCache.ExtendTTL, hnone]
  · intro e he hexp
    simp only [TTLCache.ExtendTTL, he, hexp, if_true]

/-- C7 (witness): extending key k (expires at 200) by 300 at time 100
succeeds and moves its expiration to 500, while a missing key fails. -/
theorem c7_ttl_extend_contract_witness :
    (TTLCache.ExtendTTL 100
        (⟨⟨10, [("k", 7)]⟩, [("k", ⟨7, 200⟩)], 300⟩ : TTLCache (DefCache Nat) Nat)
        "k" 300).1 = true
  ∧ alookup "k" (TTLCache.ExtendTTL 100
        (⟨⟨10, [("k", 7)]⟩, [("k", ⟨7, 200⟩)], 300⟩ : TTLCache (DefCache Nat) Nat)
        "k" 300).2.ttlEntries = some ⟨7, 500⟩
  ∧ TTLCache.ExtendTTL 100
        (⟨⟨10, [("k", 7)]⟩, [("k", ⟨7, 200⟩)], 300⟩ : TTLCache (DefCache Nat) Nat)
        "missing" 300
      = (false, ⟨⟨10, [("k", 7)]⟩, [("k", ⟨7, 200⟩)], 300⟩) := by
  have h := c7_ttl_extend_contract (DefCache Nat) Nat
    (⟨⟨10, [("k", 7)]⟩, [("k", ⟨7, 200⟩)], 300⟩ : TTLCache (DefCache Nat) Nat)
    "k" 300 100
  have h2 := c7_ttl_extend_contract (DefCache Nat) Nat
    (⟨⟨10, [("k", 7)]⟩, [("k", ⟨7, 200⟩)], 300⟩ : TTLCache (DefCache Nat) Nat)
    "missing" 300 100
  refine ⟨(h.1 ⟨7, 200⟩ (by decide) (by decide)).1, ?_, h2.2.1 (by decide)⟩
  have h3 := (h.1 ⟨7, 200⟩ (by decide) (by decide)).2.1
  exact h3

/-! ## Claim C8: the baseline `Set` contract -/

/-- C8: the baseline `Set(k, v)` overwrites in place when the key is present
regardless of fullness (same keys, same count, only the value at k changes);
inserts when the key is absent and the count is below capacity; and otherwise
drops the write with the state unchanged.  `Set` is total with no error
channel — it never raises an error in any case. -/
theorem c8_defcache_set_contract (α : Type) (d : DefCache α) (key : String)
    (value : α) :
    (d.data.any (fun p => p.1 = key) = true →
      alookup key (d.Set key value).data = some value
      ∧ (∀ k2, k2 ≠ key →
          alookup k2 (d.Set key value).data = alookup k2 d.data)
      ∧ (d.Set key value).data.length = d.data.length
      ∧ (d.Set key value).maxSize = d.maxSize)
  ∧ (d.data.any (fun p => p.1 = key) = false →
      (d.data.length : Int) < d.maxSize →
      d.Set key value = { d with data := (key, value) :: d.data })
  ∧ (d.data.any (fun p => p.1 = key) = false →
      (d.data.length : Int) ≥ d.maxSize →
      d.Set key value = d) := by
  refine ⟨?_, ?_, ?_⟩
  · intro hany
    have hstep : d.Set key value = { d with data := areplace key value d.data } := by
      simp only [DefCache.Set, hany, if_true]
    rw [hstep]
    refine ⟨?_, ?_, ?_, rfl⟩
    · exact alookup_areplace_self key value d.data hany
    · intro k2 hk2
      exact alookup_areplace_ne key k2 hk2 value d.data
    · show (areplace key value d.data).length = d.data.length
      rw [areplace, List.length_map]
  · intro hany hlt
    simp only [DefCache.Set, hany, Bool.false_eq_true, if_false,
      if_neg (not_le.mpr hlt)]
  · intro hany hge
    simp only [DefCache.Set, hany, Bool.false_eq_true, if_false, if_pos hge]

/-- C8 (witness): on a full baseline cache of capacity 2 holding {a, b},
`Set(a)` overwrites in place and `Set(c)` is silently dropped; on a cache
below capacity `Set(c)` inserts. -/
theorem c8_defcache_set_contract_witness :
    alookup "a" ((⟨2, [("a", 1), ("b", 2)]⟩ : DefCache Nat).Set "a" 9).data
      = some 9
  ∧ (⟨2, [("a", 1), ("b", 2)]⟩ : DefCache Nat).Set "c" 9
      = (⟨2, [("a", 1), ("b", 2)]⟩ : DefCache Nat)
  ∧ (⟨2, [("a", 1)]⟩ : DefCache Nat).Set "c" 9
      = (⟨2, [("c", 9), ("a", 1)]⟩ : DefCache Nat) := by
  have h1 := c8_defcache_set_contract Nat (⟨2, [("a", 1), ("b", 2)]⟩ : DefCache Nat)
    "a" 9
  have h2 := c8_defcache_set_contract Nat (⟨2, [("a", 1), ("b", 2)]⟩ : DefCache Nat)
    "c" 9
  have h3 := c8_defcache_set_contract Nat (⟨2, [("a", 1)]⟩ : DefCache Nat) "c" 9
  exact ⟨(h1.1 (by decide)).1, h2.2.2 (by decide) (by decide),
    h3.2.1 (by decide) (by decide)⟩

/-! ## Claim C9: construction routing -/

/-- C9 (counterexample): the claim as stated fails for the baseline selector.
`NewLittleCache` with the recognized `NoEviction` policy and a valid capacity
does not produce an engine: the constructor `switch` routes only `LRU` and
`LFU`, so `NoEviction` hits the default branch and fails with the
invalid-policy error (the repository test `TestNewLittleCache/no eviction
policy` expects exactly this error). -/
theorem c9_construction_counterexample :
    NewLittleCache Nat ⟨10, NoEviction⟩ = .error .invalidEvictionPolicy := by
  rfl

/-- C9 (amended): `NewLittleCache` succeeds exactly for the LRU and LFU
selectors with capacity > 0, producing the corresponding fresh engine; it
fails with the invalid-capacity error exactly when capacity ≤ 0, and with the
invalid-policy error exactly when the capacity is valid but the selector is
anything else — an unrecognized value or the baseline `NoEviction` selector,
which is constructible only directly via `NewDefCache`. -/
theorem c9_construction_amended (α : Type) (c : Config) :
    ((∃ eng, NewLittleCache α c = .ok eng) ↔
      (0 < c.maxSize ∧ (c.evictionPolicy = LRU ∨ c.evictionPolicy = LFU)))
  ∧ (NewLittleCache α c = .error .invalidMaxSize ↔ c.maxSize ≤ 0)
  ∧ (NewLittleCache α c = .error .invalidEvictionPolicy ↔
      (0 < c.maxSize ∧ c.evictionPolicy ≠ LRU ∧ c.evictionPolicy ≠ LFU))
  ∧ (0 < c.maxSize → c.evictionPolicy = LRU →
      NewLittleCache α c = .ok (.lruEngine (LRUCache.fresh α c.maxSize)))
  ∧ (0 < c.maxSize → c.evictionPolicy = LFU →
      NewLittleCache α c = .ok (.lfuEngine (LFUCache.fresh α c.maxSize))) := by
  by_cases hm : c.maxSize ≤ 0
  · have hval : c.Validate = some LCError.invalidMaxSize := by
      simp only [Config.Validate, hm, if_true]
    have hnew : NewLittleCache α c = .error .invalidMaxSize := by
      simp only [NewLittleCache, hval]
    rw [hnew]
    refine ⟨?_, ?_, ?_, ?_, ?_⟩
    · constructor
      · intro hex
        obtain ⟨eng, heng⟩ := hex
        exact absurd heng (by simp)
      · intro hok
        omega
    · simp only [true_iff]
      exact hm
    · constructor
      · intro hbad
        exact absurd hbad (by simp)
      · intro hok
        omega
    · intro h0
      omega
    · intro h0
      omega
  · by_cases hlru : c.evictionPolicy = LRU
    · have hval : c.Validate = none := by
        simp only [Config.Validate, hm, if_false]
        rw [if_neg]
        rw [hlru]
        decide
      have hnew : NewLittleCache α c
          = .ok (.lruEngine (LRUCache.fresh α c.maxSize)) := by
        simp only [NewLittleCache, NewLRUCache, hval, hlru, if_true, Except.map]
      rw [hnew]
      refine ⟨?_, ?_, ?_, ?_, ?_⟩
      · constructor
        · intro _
          exact ⟨by omega, Or.inl hlru⟩
        · intro _
          exact ⟨.lruEngine (LRUCache.fresh α c.maxSize), rfl⟩
      · constructor
        · intro hbad
          exact absurd hbad (by simp)
        · intro hle
          omega
      · constructor
        · intro hbad
          exact absurd hbad (by simp)
        · intro hok
          exact absurd hlru hok.2.1
      · intro _ _
        rfl
      · intro _ hlfu
        rw [hlru] at hlfu
        exact absurd hlfu (by decide)
    · by_cases hlfu : c.evictionPolicy = LFU
      · have hval : c.Validate = none := by
          simp only [Config.Validate, hm, if_false]
          rw [if_neg]
          rw [hlfu]
          decide
        have hnew : NewLittleCache α c
            = .ok (.lfuEngine (LFUCache.fresh α c.maxSize)) := by
          simp only [NewLittleCache, NewLFUCache, hval]
          rw [if_neg (by rw [hlfu]; decide), if_pos hlfu]
          rfl
        rw [hnew]
        refine ⟨?_, ?_, ?_, ?_, ?_⟩
        · constructor
          · intro _
            exact ⟨by omega, Or.inr hlfu⟩
          · intro _
            exact ⟨.lfuEngine (LFUCache.fresh α c.maxSize), rfl⟩
        · constructor
          · intro hbad
            exact absurd hbad (by simp)
          · intro hle
            omega
        · constructor
          · intro hbad
            exact absurd hbad (by simp)
          · intro hok
            exact absurd hlfu hok.2.2
        · intro _ hl
          rw [hlfu] at hl
          exact absurd hl (by decide)
        · intro _ _
          rfl
      · have hnew : NewLittleCache α c = .error .invalidEvictionPolicy := by
          by_cases hr : c.evictionPolicy < NoEviction ∨ c.evictionPolicy > LFU
          · have hval : c.Validate = some LCError.invalidEvictionPolicy := by
              simp only [Config.Validate, hm, if_false, hr, if_true]
            simp only [NewLittleCache, hval]
          · have hval : c.Validate = none := by
              simp only [Config.Validate, hm, if_false, hr, if_false]
            simp only [NewLittleCache, hval, hlru, hlfu, if_false]
        rw [hnew]
        refine ⟨?_, ?_, ?_, ?_, ?_⟩
        · constructor
          · intro hex
            obtain ⟨eng, heng⟩ := hex
            exact absurd heng (by simp)
          · intro hok
            rcases hok.2 with h | h
            · exact absurd h hlru
            · exact absurd h hlfu
        · constructor
          · intro hbad
            exact absurd hbad (by simp)
          · intro hle
            omega
        · simp only [true_iff]
          exact ⟨by omega, hlru, hlfu⟩
        · intro _ hl
          exact absurd hl hlru
        · intro _ hl
          exact absurd hl hlfu

/-- C9 (witness): the amended routing evaluated at the LRU selector with
capacity 5. -/
theorem c9_construction_amended_witness :
    NewLittleCache Nat ⟨5, LRU⟩ = .ok (.lruEngine (LRUCache.fresh Nat 5)) := by
  have h := c9_construction_amended Nat ⟨5, LRU⟩
  exact h.2.2.2.1 (by decide) rfl

/-! ## Claim C10: a non-positive TTL yields an already-expired entry -/

/-- C10: `SetWithTTL(k, v, ttl)` with `ttl ≤ 0` is accepted silently and
records `expiresAt = now + ttl`; at any observation instant strictly after
the call the entry is expired, so `Get(k)` reports not-found and lazily
removes the TTL record (and the wrapped entry), `GetTTL(k)` reports
not-found, and `Size()` does not count k. -/
theorem c10_nonpositive_ttl_expired (σ α : Type) (ops : EngineOps σ α)
    (t : TTLCache σ α) (key : String) (value : α) (ttl now now2 : Int)
    (httl : ttl ≤ 0) (hafter : now < now2) :
    alookup key (TTLCache.SetWithTTL ops now t key value ttl).ttlEntries
      = some ⟨value, now + ttl⟩
  ∧ (TTLCache.Get ops now2 (TTLCache.SetWithTTL ops now t key value ttl) key).1
      = none
  ∧ alookup key
      (TTLCache.Get ops now2
        (TTLCache.SetWithTTL ops now t key value ttl) key).2.ttlEntries
      = none
  ∧ TTLCache.GetTTL now2 (TTLCache.SetWithTTL ops now t key value ttl) key
      = (0, false)
  ∧ TTLCache.Size now2 (TTLCache.SetWithTTL ops now t key value ttl)
      = TTLCache.Size now2
          (TTLCache.Delete ops (TTLCache.SetWithTTL ops now t key value ttl) key) := by
  have hlook : alookup key (TTLCache.SetWithTTL ops now t key value ttl).ttlEntries
      = some ⟨value, now + ttl⟩ := by
    show alookup key (aupsert key ⟨value, now + ttl⟩ t.ttlEntries)
      = some ⟨value, now + ttl⟩
    exact alookup_aupsert_self key ⟨value, now + ttl⟩ t.ttlEntries
  have hexp : (⟨value, now + ttl⟩ : TTLEntry α).IsExpired now2 = true := by
    simp only [TTLEntry.IsExpired, decide_eq_true_eq]
    omega
  refine ⟨hlook, ?_, ?_, ?_, ?_⟩
  · simp only [TTLCache.Get, hlook, hexp, if_true]
  · simp only [TTLCache.Get, hlook, hexp, if_true]
    exact alookup_aerase_self key _
  · simp only [TTLCache.GetTTL, hlook, hexp, if_true]
  · have hall : ∀ p ∈ (TTLCache.SetWithTTL ops now t key value ttl).ttlEntries,
        p.1 = key → p.2.IsExpired now2 = true := by
      intro p hp hpk
      have hp2 : p ∈ aupsert key (⟨value, now + ttl⟩ : TTLEntry α) t.ttlEntries := hp
      have hpv := aupsert_forall_key key ⟨value, now + ttl⟩ t.ttlEntries p hp2 hpk
      rw [hpv]
      exact hexp
    simp only [TTLCache.Size, TTLCache.Delete]
    rw [filter_expired_aerase now2 key
      (TTLCache.SetWithTTL ops now t key value ttl).ttlEntries hall]

/-- C10 (witness): `SetWithTTL(k, v, 0)` at time 100 on an empty TTL cache
over the baseline engine, observed at time 101. -/
theorem c10_nonpositive_ttl_expired_witness :
    alookup "k" (TTLCache.SetWithTTL (DefCache.ops Nat) 100
        (⟨⟨10, []⟩, [], 300⟩ : TTLCache (DefCache Nat) Nat) "k" 5 0).ttlEntries
      = some ⟨5, 100⟩
  ∧ (TTLCache.Get (DefCache.ops Nat) 101
      (TTLCache.SetWithTTL (DefCache.ops Nat) 100
        (⟨⟨10, []⟩, [], 300⟩ : TTLCache (DefCache Nat) Nat) "k" 5 0) "k").1
      = none
  ∧ TTLCache.GetTTL 101
      (TTLCache.SetWithTTL (DefCache.ops Nat) 100
        (⟨⟨10, []⟩, [], 300⟩ : TTLCache (DefCache Nat) Nat) "k" 5 0) "k"
      = (0, false) := by
  have h := c10_nonpositive_ttl_expired (DefCache Nat) Nat (DefCache.ops Nat)
    (⟨⟨10, []⟩, [], 300⟩ : TTLCache (DefCache Nat) Nat) "k" 5 0 100 101
    (by decide) (by decide)
  exact ⟨h.1, h.2.1, h.2.2.2.1⟩

end LittleCache
